import Mathlib

/-!
Verification of the nomicon-vec repository: a growable array (`Vec`) over a
manually managed buffer (`RawVec`), with a double-ended raw cursor
(`RawValIter`), a consuming iterator (`IntoIter`) and a draining iterator
(`Drain`).

Shallow embedding conventions:
- Machine `usize` arithmetic is `Nat` with explicit `% 2 ^ 64` at the sites
  where the source performs a multiplication that could wrap.
- Memory is modelled at element granularity: a `Vec` carries `mem : Nat → α`,
  the contents of slot `j` of its buffer (slots at or beyond `len` hold
  unspecified junk, initialised to `default`).  Raw-pointer iterators carry
  the byte-address pair `start`/`endp` together with the list of elements of
  the range they were built over and its base address; reading an address
  decodes the element index from the offset.
- Rust panics and aborts are an explicit `Panic` error value; the external
  allocator is out of scope and modelled as always succeeding, with a `Bool`
  recording whether it was invoked.
-/

set_option autoImplicit false
set_option linter.unusedSectionVars false

namespace NomiconVec

variable {α : Type} [Inhabited α]

/-- Fatal conditions of the program: the three assertion messages that occur
in the source, the division-by-zero panic of `usize` division, and
allocator-reported out-of-memory. -/
inductive Panic where
  | notReadyForZSTs
  | capacityOverflow
  | indexOutOfBounds
  | divisionByZero
  | oom
  deriving DecidableEq, Repr

/-- Number of values of `usize` (64-bit). -/
def usizeSize : Nat := 2 ^ 64

/-- `std::isize::MAX` on a 64-bit target, the maximum representable byte
offset used by the capacity-overflow guard in `grow`. -/
def isizeMax : Nat := 2 ^ 63 - 1

/-- `RawVec<T>` from src/raw_vec.rs: owns one allocation of `cap` slots.
The owned pointer and the allocator handle are not observable and are
omitted; `cap` is the only field the claims mention. -/
structure RawVec where
  cap : Nat
  deriving DecidableEq, Repr

/-- `RawVec::default` from src/raw_vec.rs: capacity `!0` (that is,
`usize::MAX`) for a zero-sized element type, `0` otherwise; no allocation is
performed.  `es` is `mem::size_of::<T>()`. -/
def RawVec.default (es : Nat) : RawVec :=
  { cap := if es = 0 then usizeSize - 1 else 0 }

/-- `RawVec::grow` from src/raw_vec.rs.  First asserts
`elem_size != 0` with message "capacity overflow"; then either performs the
initial allocation of one slot, or checks
`old_num_bytes <= isize::MAX / 2` and doubles the capacity.  The returned
`Bool` records whether the allocator was invoked (`alloc_one` or
`realloc_array`); an `error` result is produced before any allocator call. -/
def RawVec.grow (es : Nat) (r : RawVec) : Except Panic (RawVec × Bool) :=
  if es = 0 then .error .capacityOverflow
  else if r.cap = 0 then .ok ({ cap := 1 }, true)
  else if (r.cap * es) % usizeSize ≤ isizeMax / 2 then
    .ok ({ cap := (r.cap * 2) % usizeSize }, true)
  else .error .capacityOverflow

/-- `Vec<T>` from src/vec.rs: a buffer pointer, capacity and length.  The
buffer contents are modelled by `mem`, giving the element stored in each
slot of the allocation. -/
structure Vec (α : Type) where
  mem : Nat → α
  cap : Nat
  len : Nat

/-- `Vec::new` from src/vec.rs: asserts that the element type is not
zero-sized (the "not ready to handle ZSTs" assertion), then returns an empty
vector with a dangling pointer and capacity 0. -/
def Vec.new (es : Nat) : Except Panic (Vec α) :=
  if es ≠ 0 then .ok { mem := fun _ => default, cap := 0, len := 0 }
  else .error .notReadyForZSTs

/-- `Vec::grow` from src/vec.rs: initial capacity 1, afterwards checks
`old_num_bytes <= isize::MAX / 2` ("capacity overflow") and doubles.
Reallocation preserves the buffer contents and the length. -/
def Vec.grow (es : Nat) (v : Vec α) : Except Panic (Vec α) :=
  if v.cap = 0 then .ok { v with cap := 1 }
  else if (v.cap * es) % usizeSize ≤ isizeMax / 2 then
    .ok { v with cap := (v.cap * 2) % usizeSize }
  else .error .capacityOverflow

/-- `Vec::push` from src/vec.rs: grows when `len == cap`, writes the element
into the slot at `len`, then increments `len`. -/
def Vec.push (es : Nat) (v : Vec α) (elem : α) : Except Panic (Vec α) :=
  (if v.len = v.cap then v.grow es else .ok v).bind fun w =>
    .ok { w with
          mem := fun j => if j = w.len then elem else w.mem j,
          len := w.len + 1 }

/-- `Vec::pop` from src/vec.rs: `None` when `len == 0`, otherwise decrements
`len` and reads the slot at the new `len`. -/
def Vec.pop (v : Vec α) : Option α × Vec α :=
  if v.len = 0 then (none, v)
  else (some (v.mem (v.len - 1)), { v with len := v.len - 1 })

/-- `Vec::insert` from src/vec.rs: asserts `index <= len`
("index out of bounds"), grows when full, shifts `[index, len)` one slot to
the right with an overlapping copy, writes the element at `index` and
increments `len`. -/
def Vec.insert (es : Nat) (v : Vec α) (index : Nat) (elem : α) : Except Panic (Vec α) :=
  if index ≤ v.len then
    (if v.len = v.cap then v.grow es else .ok v).bind fun w =>
      let shifted : Nat → α := fun j =>
        if index < w.len ∧ index + 1 ≤ j ∧ j ≤ w.len then w.mem (j - 1) else w.mem j
      .ok { w with
            mem := fun j => if j = index then elem else shifted j,
            len := w.len + 1 }
  else .error .indexOutOfBounds

/-- `Vec::remove` from src/vec.rs: asserts `index < len`
("index out of bounds"), decrements `len`, reads the slot at `index` out and
shifts `[index + 1, old len)` one slot to the left. -/
def Vec.remove (v : Vec α) (index : Nat) : Except Panic (α × Vec α) :=
  if index < v.len then
    let len' := v.len - 1
    let mem' : Nat → α := fun j =>
      if index ≤ j ∧ j < index + (len' - index) then v.mem (j + 1) else v.mem j
    .ok (v.mem index, { v with mem := mem', len := len' })
  else .error .indexOutOfBounds

/-- Iterated `push` of a list of elements, left to right. -/
def Vec.pushAll (es : Nat) (v : Vec α) : List α → Except Panic (Vec α)
  | [] => .ok v
  | a :: l => (v.push es a).bind fun w => w.pushAll es l

/-- Iterated `pop`, collecting the `n` results in order. -/
def Vec.popSeq (v : Vec α) : Nat → List (Option α) × Vec α
  | 0 => ([], v)
  | n + 1 =>
    let p := v.pop
    let q := p.2.popSeq n
    (p.1 :: q.1, q.2)

/-- Effective address step of one element: element size, except that
zero-sized elements advance addresses by one unit (the ZST branches of
src/raw_val_iter.rs). -/
def stride (es : Nat) : Nat :=
  if es = 0 then 1 else es

/-- Memory model for the raw iterators: the element stored at byte address
`a` inside a range based at address `base` that holds the elements `elems`
with element size `es`.  The index is decoded from the byte offset; for
zero-sized elements addresses count elements directly. -/
def memRead (elems : List α) (base es a : Nat) : α :=
  elems.getD ((a - base) / stride es) default

/-- `RawValIter<T>` from src/raw_val_iter.rs: a pair of raw addresses.
`es`, `base` and `elems` record the element size, the base address and the
contents of the range the cursor was built over; the Rust struct carries
them implicitly (in the type parameter and in the pointed-to memory). -/
structure RawValIter (α : Type) where
  es : Nat
  base : Nat
  elems : List α
  start : Nat
  endp : Nat

/-- `RawValIter::new` from src/raw_val_iter.rs: `start` is the slice address;
`end` is `start + len` for a zero-sized element type (a count, not an
offset), `start` itself for an empty slice, and `start.offset(len)`
otherwise. -/
def RawValIter.new (es base : Nat) (slice : List α) : RawValIter α :=
  { es, base, elems := slice, start := base,
    endp :=
      if es = 0 then base + slice.length
      else if slice.length = 0 then base
      else base + slice.length * es }

/-- `RawValIter::next` from src/raw_val_iter.rs: yields nothing when
`start == end`, otherwise reads the value at `start` and advances `start`
by one element (by one unit for a zero-sized element type). -/
def RawValIter.next (it : RawValIter α) : Option α × RawValIter α :=
  if it.start = it.endp then (none, it)
  else
    (some (memRead it.elems it.base it.es it.start),
     { it with start := if it.es = 0 then it.start + 1 else it.start + it.es })

/-- `RawValIter::next_back` from src/raw_val_iter.rs: retreats `end` by one
element (one unit when zero-sized) and reads the value now at `end`. -/
def RawValIter.nextBack (it : RawValIter α) : Option α × RawValIter α :=
  if it.start = it.endp then (none, it)
  else
    let e := if it.es = 0 then it.endp - 1 else it.endp - it.es
    (some (memRead it.elems it.base it.es e), { it with endp := e })

/-- `RawValIter::size_hint` from src/raw_val_iter.rs:
`(end - start) / elem_size`, with the divisor replaced by 1 when the element
size is 0. -/
def RawValIter.sizeHint (it : RawValIter α) : Nat × Option Nat :=
  ((it.endp - it.start) / (if it.es = 0 then 1 else it.es),
   some ((it.endp - it.start) / (if it.es = 0 then 1 else it.es)))

/-- Applies a sequence of cursor operations: `true` is `next`, `false` is
`next_back`; collects the results in order. -/
def RawValIter.run (it : RawValIter α) : List Bool → List (Option α) × RawValIter α
  | [] => ([], it)
  | d :: ds =>
    let p := cond d it.next it.nextBack
    let q := p.2.run ds
    (p.1 :: q.1, q.2)

/-- The `for _ in &mut self.iter {}` loop of `Drain::drop`
(src/drain.rs): repeated `next` until exhaustion, returning the
elements that were read out and discarded.  On the reachable states of the
iterator the loop performs exactly `size_hint` steps. -/
def RawValIter.drainAll (it : RawValIter α) : List α :=
  ((it.run (List.replicate it.sizeHint.1 true)).1).reduceOption

/-- Correspondence between a cursor state and positions `s ≤ e` in the range
it was built over. -/
def RVInv (es base : Nat) (elems : List α) (s e : Nat) (it : RawValIter α) : Prop :=
  it.es = es ∧ it.base = base ∧ it.elems = elems ∧ s ≤ e ∧ e ≤ elems.length ∧
    it.start = base + s * stride es ∧ it.endp = base + e * stride es

/-- Specification model for a double-ended traversal, following the spec of
the ValueCursor state machine: one step pops the first (`true`) or the last
(`false`) element of the remaining list, yielding nothing once empty. -/
def specDequeStep (xs : List α) (d : Bool) : Option α × List α :=
  cond d (xs.head?, xs.tail) (xs.getLast?, xs.dropLast)

/-- Specification model: runs a sequence of deque steps, collecting results. -/
def specDequeRun (xs : List α) : List Bool → List (Option α) × List α
  | [] => ([], xs)
  | d :: ds =>
    let p := specDequeStep xs d
    let q := specDequeRun p.2 ds
    (p.1 :: q.1, q.2)

/-- `IntoIter<T>` from src/into_iter.rs: the retained buffer plus a pair of
raw addresses.  As for `RawValIter`, `es`, `base` and `elems` model the
element size and the contents of the live range of the buffer. -/
structure IntoIter (α : Type) where
  es : Nat
  base : Nat
  elems : List α
  start : Nat
  endp : Nat

/-- `IntoIter::new` from src/into_iter.rs: stores the buffer and the given
`start` and `end` addresses. -/
def IntoIter.new (es base : Nat) (elems : List α) (start endp : Nat) : IntoIter α :=
  { es, base, elems, start, endp }

/-- `Vec::into_iter` from src/vec.rs: takes the buffer; `start` is the buffer
address and `end` is the same address when `cap == 0` (no offset arithmetic
on the unallocated placeholder), otherwise `start.offset(len)`. -/
def Vec.intoIter (es base : Nat) (v : Vec α) : IntoIter α :=
  { es, base, elems := (List.range v.len).map v.mem, start := base,
    endp := if v.cap = 0 then base else base + v.len * es }

/-- `IntoIter::next` from src/into_iter.rs: yields nothing when
`start == end`, otherwise reads at `start` and advances it by one element
(`offset(1)`, with no zero-size special case). -/
def IntoIter.next (it : IntoIter α) : Option α × IntoIter α :=
  if it.start = it.endp then (none, it)
  else
    (some (memRead it.elems it.base it.es it.start), { it with start := it.start + it.es })

/-- `IntoIter::next_back` from src/into_iter.rs: retreats `end` by one
element and reads there. -/
def IntoIter.nextBack (it : IntoIter α) : Option α × IntoIter α :=
  if it.start = it.endp then (none, it)
  else
    (some (memRead it.elems it.base it.es (it.endp - it.es)),
     { it with endp := it.endp - it.es })

/-- `IntoIter::size_hint` from src/into_iter.rs:
`(end - start) / mem::size_of::<T>()`, with no guard on the divisor; `usize`
division by zero is a panic. -/
def IntoIter.sizeHint (it : IntoIter α) : Except Panic (Nat × Option Nat) :=
  if it.es = 0 then .error .divisionByZero
  else .ok ((it.endp - it.start) / it.es, some ((it.endp - it.start) / it.es))

/-- Applies a sequence of iterator operations, as for `RawValIter.run`. -/
def IntoIter.run (it : IntoIter α) : List Bool → List (Option α) × IntoIter α
  | [] => ([], it)
  | d :: ds =>
    let p := cond d it.next it.nextBack
    let q := p.2.run ds
    (p.1 :: q.1, q.2)

/-- The `for _ in &mut *self {}` loop of `IntoIter::drop`
(src/into_iter.rs): repeated `next` until exhaustion.  On the
reachable states of the iterator (element size at least 1, as guaranteed by
`Vec::new`) the loop performs exactly `size_hint` steps; `stride` keeps the
loop bound well-defined. -/
def IntoIter.drainAll (it : IntoIter α) : List α :=
  ((it.run (List.replicate ((it.endp - it.start) / stride it.es) true)).1).reduceOption

/-- `IntoIter::drop` from src/into_iter.rs: when the element type requires
cleanup (`mem::needs_drop`), exhausts the iterator so that every remaining
element is read out and dropped; returns the elements so visited. -/
def IntoIter.dropRun (needsDrop : Bool) (it : IntoIter α) : List α :=
  if needsDrop then it.drainAll else []

/-- Correspondence between a consuming-iterator state and positions
`s ≤ e` in the live range of the buffer. -/
def IIInv (es base : Nat) (elems : List α) (s e : Nat) (it : IntoIter α) : Prop :=
  it.es = es ∧ it.base = base ∧ it.elems = elems ∧ s ≤ e ∧ e ≤ elems.length ∧
    it.start = base + s * es ∧ it.endp = base + e * es

/-- The Drain type from src/drain.rs: a cursor over the drained suffix (the
borrow of the source vector is a phantom). -/
structure Drain (α : Type) where
  iter : RawValIter α

/-- `Drain::new` from src/drain.rs. -/
def Drain.new (iter : RawValIter α) : Drain α :=
  { iter }

/-- `Drain::next` and `Drain::next_back` delegate to the inner cursor;
`run` applies a sequence of them. -/
def Drain.run (d : Drain α) (ds : List Bool) : List (Option α) × Drain α :=
  ((d.iter.run ds).1, ⟨(d.iter.run ds).2⟩)

/-- `Drain::drop` from src/drain.rs: `for _ in &mut self.iter {}` exhausts
the cursor unconditionally, reading out and discarding (hence dropping)
every remaining element; returns the elements so visited. -/
def Drain.dropRun (d : Drain α) : List α :=
  d.iter.drainAll

/-- Modelled from the spec: `Vec::drain` itself is not under src/ (only the
`Drain` type, its `Drop` glue and its tests are), so the construction is
taken from spec sections 4.5 and 6: it aborts with an out-of-bounds
condition when `start >= length`, eagerly sets the length of the array to
`start`, and builds a cursor over the `[start, oldLength)` range of the
backing storage. -/
def Vec.drain (es base : Nat) (v : Vec α) (start : Nat) : Except Panic (Drain α × Vec α) :=
  if start < v.len then
    .ok (Drain.new (RawValIter.new es (base + start * es)
           (((List.range v.len).map v.mem).drop start)),
         { v with len := start })
  else .error .indexOutOfBounds

/-- A sample two-element vector, representing `[0, 1]`. -/
def sampleVec : Vec Nat :=
  { mem := fun j => j, cap := 2, len := 2 }

/-- Capacity invariant maintained by `push` starting from a fresh vector:
either nothing was ever allocated, or the capacity is the least power of two
that is at least the length. -/
def GrowInv (v : Vec α) : Prop :=
  (v.cap = 0 ∧ v.len = 0) ∨ ∃ k, v.cap = 2 ^ k ∧ v.len ≤ 2 ^ k ∧ 2 ^ k < 2 * v.len

theorem Vec.grow_ok (es : Nat) (v : Vec α) (h : v.cap ≠ 0 → v.cap * es ≤ isizeMax / 2) :
    v.grow es = .ok { v with cap := if v.cap = 0 then 1 else (v.cap * 2) % usizeSize } := by
  unfold Vec.grow
  by_cases hc0 : v.cap = 0
  · simp [hc0]
  · have hle := h hc0
    have hmod : (v.cap * es) % usizeSize = v.cap * es :=
      Nat.mod_eq_of_lt (lt_of_le_of_lt hle (by decide))
    simp [hc0, hmod, hle]

theorem Vec.push_spec (es : Nat) (v : Vec α) (a : α)
    (h : v.len = v.cap → v.cap ≠ 0 → v.cap * es ≤ isizeMax / 2) :
    ∃ w, v.push es a = .ok w ∧ w.len = v.len + 1 ∧
      w.cap = (if v.len = v.cap then if v.cap = 0 then 1 else (v.cap * 2) % usizeSize else v.cap) ∧
      (∀ j, j ≠ v.len → w.mem j = v.mem j) ∧ w.mem v.len = a := by
  by_cases hlc : v.len = v.cap
  · have hg := Vec.grow_ok es v (h hlc)
    refine ⟨{ mem := fun j => if j = v.len then a else v.mem j,
              cap := if v.cap = 0 then 1 else (v.cap * 2) % usizeSize,
              len := v.len + 1 }, ?_, rfl, by simp [hlc], ?_, by simp⟩
    · unfold Vec.push
      rw [if_pos hlc, hg]
      rfl
    · intro j hj
      simp [hj]
  · refine ⟨{ mem := fun j => if j = v.len then a else v.mem j,
              cap := v.cap, len := v.len + 1 }, ?_, rfl, by simp [hlc], ?_, by simp⟩
    · unfold Vec.push
      rw [if_neg hlc]
      rfl
    · intro j hj
      simp [hj]

theorem Vec.push_growInv (es : Nat) (hes : 1 ≤ es) (v w : Vec α) (hinv : GrowInv v)
    (hcapw : w.cap =
      (if v.len = v.cap then if v.cap = 0 then 1 else (v.cap * 2) % usizeSize else v.cap))
    (hlenw : w.len = v.len + 1)
    (hsmall : v.len = v.cap → v.cap * es ≤ isizeMax / 2) :
    GrowInv w := by
  rcases hinv with ⟨hc, hl⟩ | ⟨k, hc, hle, hlt⟩
  · right
    refine ⟨0, ?_, ?_, ?_⟩ <;> simp [hcapw, hlenw, hl, hc]
  · right
    have hpk : 1 ≤ 2 ^ k := Nat.one_le_two_pow
    by_cases hlc : v.len = v.cap
    · have hc0 : v.cap ≠ 0 := by omega
      have hsm := hsmall hlc
      have h1 : v.cap ≤ v.cap * es := Nat.le_mul_of_pos_right _ (by omega)
      have h2 : isizeMax / 2 = 4611686018427387903 := by decide
      have h3 : usizeSize = 18446744073709551616 := by decide
      have hcap2 : v.cap * 2 < usizeSize := by omega
      refine ⟨k + 1, ?_, ?_, ?_⟩
      · rw [hcapw, if_pos hlc, if_neg hc0, Nat.mod_eq_of_lt hcap2, hc, pow_succ]
      · rw [hlenw, hlc, hc, pow_succ]
        omega
      · rw [hlenw, hlc, hc, pow_succ]
        omega
    · refine ⟨k, ?_, ?_, ?_⟩
      · rw [hcapw, if_neg hlc, hc]
      · rw [hlenw]
        omega
      · rw [hlenw]
        omega

theorem Vec.pushAll_spec (es : Nat) (hes : 1 ≤ es) :
    ∀ (M : List α) (v : Vec α), GrowInv v →
      (∀ j, j < v.len + M.length → j * es ≤ isizeMax / 2) →
      ∃ w, v.pushAll es M = .ok w ∧ w.len = v.len + M.length ∧ GrowInv w ∧
        (∀ i, i < v.len → w.mem i = v.mem i) ∧
        (∀ i, i < M.length → w.mem (v.len + i) = M.getD i default)
  | [], v, hinv, _ => ⟨v, rfl, by simp, hinv, fun _ _ => rfl, by simp⟩
  | a :: M, v, hinv, hb => by
    have hpre : v.len = v.cap → v.cap ≠ 0 → v.cap * es ≤ isizeMax / 2 := by
      intro hlc _
      have := hb v.len (by simp)
      rwa [hlc] at this
    obtain ⟨w₁, hw₁, hlen₁, hcap₁, hmemo, hmemn⟩ := Vec.push_spec es v a hpre
    have hsmall : v.len = v.cap → v.cap * es ≤ isizeMax / 2 := by
      intro hlc
      by_cases hc0 : v.cap = 0
      · simp [hc0]
      · exact hpre hlc hc0
    have hinv₁ : GrowInv w₁ := Vec.push_growInv es hes v w₁ hinv hcap₁ hlen₁ hsmall
    obtain ⟨w, hw, hlen, hinv', hpres, hnew⟩ :=
      Vec.pushAll_spec es hes M w₁ hinv₁ (by
        intro j hj
        exact hb j (by simp at hj ⊢; omega))
    refine ⟨w, ?_, ?_, hinv', ?_, ?_⟩
    · unfold Vec.pushAll
      rw [hw₁]
      exact hw
    · simp at hlen ⊢
      omega
    · intro i hi
      rw [hpres i (by omega), hmemo i (by omega)]
    · intro i hi
      match i with
      | 0 => rw [Nat.add_zero, hpres v.len (by omega), hmemn, List.getD_cons_zero]
      | i' + 1 =>
        have : v.len + (i' + 1) = w₁.len + i' := by omega
        rw [this, hnew i' (by simpa using hi), List.getD_cons_succ]

/-- Claim C3 counterexample: creating the array with a zero-sized element
type does not succeed; `Vec::new` aborts with
the not-ready-to-handle-ZSTs assertion (src/vec.rs, also asserted by the
`zst_panic` test). -/
theorem zst_new_aborts : (Vec.new 0 : Except Panic (Vec Unit)) = .error .notReadyForZSTs := rfl

/-- Claim C3 (amended): at the RawBuffer layer a zero-sized element type gets
the sentinel maximum capacity `usize::MAX` from `RawVec::default` with no
allocation, and `RawVec::grow` on a zero-sized type aborts with a
capacity-overflow condition before ever invoking the allocator; the
user-facing `Vec::new`, however, aborts for zero-sized element types, so its
push/pop/insert/remove are not reachable for them. -/
theorem zst_rawvec_sentinel :
    (RawVec.default 0).cap = usizeSize - 1 ∧
    (∀ r : RawVec, RawVec.grow 0 r = .error .capacityOverflow) ∧
    ∀ (β : Type) [Inhabited β], (Vec.new 0 : Except Panic (Vec β)) = .error .notReadyForZSTs := by
  refine ⟨rfl, fun r => rfl, fun β _ => rfl⟩

/-- Claim C5 counterexample: with element size 1 and capacity
`isize::MAX / 2`, the new byte size (twice the current byte size) exceeds
half of the maximum representable byte offset, yet `RawVec::grow` does not
abort: it doubles the capacity (the guard in the code compares the old byte
size, not the new one, against `isize::MAX / 2`). -/
theorem grow_threshold_cex :
    isizeMax / 2 < 2 * (4611686018427387903 * 1) ∧
    RawVec.grow 1 ⟨4611686018427387903⟩ = .ok (⟨9223372036854775806⟩, true) := by
  exact ⟨by decide, rfl⟩

theorem Vec.new_ok (es : Nat) (hes : es ≠ 0) :
    (Vec.new es : Except Panic (Vec α)) = .ok { mem := fun _ => default, cap := 0, len := 0 } := by
  unfold Vec.new
  rw [if_pos hes]

theorem Vec.run_pushAll (es : Nat) (hes : 1 ≤ es) (L : List α)
    (hN : L.length * es ≤ isizeMax / 2) :
    ∃ w, ((Vec.new es : Except Panic (Vec α)).bind fun u => u.pushAll es L) = .ok w ∧
      w.len = L.length ∧ GrowInv w ∧ ∀ i, i < L.length → w.mem i = L.getD i default := by
  obtain ⟨w, hw, hlen, hinv, _, hnew⟩ :=
    Vec.pushAll_spec es hes L { mem := fun _ => default, cap := 0, len := 0 }
      (Or.inl ⟨rfl, rfl⟩)
      (fun j hj => le_trans (Nat.mul_le_mul_right es (by simpa using hj.le)) hN)
  refine ⟨w, ?_, by simpa using hlen, hinv, fun i hi => by simpa using hnew i hi⟩
  rw [Vec.new_ok es (by omega)]
  exact hw

/-- Claim C1: starting from a freshly created vector, a sequence of `N`
pushes succeeds (the capacity-overflow abort is out of reach for the stated
sizes), leaves `len == N`, and leaves the capacity at `0` when `N = 0` and
otherwise at the least power of two that is at least `N` — so the capacity
takes exactly the values `0, 1, 2, 4, 8, ...`.  Moreover each push writes
its element into the slot at the old length, then increments the length by
one, and changes the capacity only when it found `length == capacity`, in
which case the capacity goes from `0` to `1` or doubles. -/
theorem push_sequence_length_capacity (es : Nat) (L : List α) (hes : 1 ≤ es)
    (hN : L.length * es ≤ isizeMax / 2) :
    (∀ (v : Vec α) (a : α) (w : Vec α), v.push es a = .ok w →
        w.len = v.len + 1 ∧ w.mem v.len = a ∧
        (v.len ≠ v.cap → w.cap = v.cap) ∧
        (v.len = v.cap → w.cap = if v.cap = 0 then 1 else (v.cap * 2) % usizeSize)) ∧
    ((Vec.new es : Except Panic (Vec α)).bind fun u => u.pushAll es L).map (fun w => w.len)
        = .ok L.length ∧
    (L = [] →
      ((Vec.new es : Except Panic (Vec α)).bind fun u => u.pushAll es L).map (fun w => w.cap)
        = .ok 0) ∧
    (L ≠ [] → ∃ k,
      ((Vec.new es : Except Panic (Vec α)).bind fun u => u.pushAll es L).map (fun w => w.cap)
          = .ok (2 ^ k) ∧
        L.length ≤ 2 ^ k ∧ 2 ^ k < 2 * L.length) ∧
    (∀ i, i < L.length →
      ((Vec.new es : Except Panic (Vec α)).bind fun u => u.pushAll es L).map (fun w => w.mem i)
        = .ok (L.getD i default)) := by
  obtain ⟨w, hw, hlen, hinv, hmem⟩ := Vec.run_pushAll es hes L hN
  refine ⟨?_, ?_, ?_, ?_, ?_⟩
  · intro v a u hu
    unfold Vec.push at hu
    by_cases hlc : v.len = v.cap
    · rw [if_pos hlc] at hu
      unfold Vec.grow at hu
      by_cases hc0 : v.cap = 0
      · rw [if_pos hc0] at hu
        cases hu
        exact ⟨rfl, by simp, fun h => absurd hlc h, fun _ => by simp [hc0]⟩
      · rw [if_neg hc0] at hu
        by_cases hch : (v.cap * es) % usizeSize ≤ isizeMax / 2
        · rw [if_pos hch] at hu
          cases hu
          exact ⟨rfl, by simp, fun h => absurd hlc h, fun _ => by simp [hc0]⟩
        · rw [if_neg hch] at hu
          cases hu
    · rw [if_neg hlc] at hu
      cases hu
      exact ⟨rfl, by simp, fun _ => rfl, fun h => absurd h hlc⟩
  · rw [hw]
    simp [Except.map, hlen]
  · intro hnil
    rw [hw]
    rcases hinv with ⟨hc, _⟩ | ⟨k, _, _, hk⟩
    · simp [Except.map, hc]
    · rw [hlen, hnil] at hk
      simp at hk
  · intro hnil
    rcases hinv with ⟨_, hl⟩ | ⟨k, hc, hka, hkb⟩
    · rw [hlen] at hl
      exact absurd (List.length_eq_zero.mp hl) hnil
    · rw [hlen] at hka hkb
      exact ⟨k, by rw [hw]; simp [Except.map, hc], hka, hkb⟩
  · intro i hi
    rw [hw]
    simp [Except.map, hmem i hi]

theorem push_sequence_length_capacity_witness :
    1 ≤ 1 ∧ ([5, 6] : List Nat).length * 1 ≤ isizeMax / 2 ∧
    ((Vec.new 1 : Except Panic (Vec Nat)).bind fun u => u.pushAll 1 [5, 6]).map (fun w => w.len)
      = .ok 2 :=
  ⟨by decide, by decide,
   (push_sequence_length_capacity 1 [5, 6] (by decide) (by decide)).2.1⟩

theorem Vec.popSeq_none : ∀ (m : Nat) (v : Vec α), v.len = 0 →
    (v.popSeq m).1 = List.replicate m none ∧ (v.popSeq m).2 = v
  | 0, _, _ => ⟨rfl, rfl⟩
  | m + 1, v, h => by
    have hp : v.pop = (none, v) := by
      unfold Vec.pop
      rw [if_pos h]
    have ih := Vec.popSeq_none m v h
    simp only [Vec.popSeq, hp]
    exact ⟨by rw [ih.1]; rfl, ih.2⟩

theorem Vec.popSeq_len : ∀ (j : Nat) (v : Vec α), (v.popSeq j).2.len = v.len - j
  | 0, v => by simp [Vec.popSeq]
  | j + 1, v => by
    have hp : v.pop.2.len = v.len - 1 := by
      unfold Vec.pop
      by_cases h : v.len = 0
      · rw [if_pos h]
        simp [h]
      · rw [if_neg h]
    have ih := Vec.popSeq_len j v.pop.2
    have hs : (v.popSeq (j + 1)).2 = (v.pop.2.popSeq j).2 := rfl
    rw [hs, ih, hp]
    omega

theorem Vec.popSeq_spec (L : List α) :
    ∀ (v : Vec α), v.len = L.length →
      (∀ i, i < L.length → v.mem i = L.getD i default) →
      ∀ m, (v.popSeq (L.length + m)).1 = L.reverse.map some ++ List.replicate m none := by
  induction L using List.reverseRecOn with
  | nil =>
    intro v h _ m
    simpa using (Vec.popSeq_none m v h).1
  | append_singleton l a ih =>
    intro v hl hm m
    have hlen : v.len = l.length + 1 := by simpa using hl
    have hma : v.mem l.length = a := by
      have h := hm l.length (by simp)
      rwa [List.getD_append_right l [a] default l.length le_rfl, Nat.sub_self,
        List.getD_cons_zero] at h
    have hstep : v.pop = (some a, { v with len := l.length }) := by
      unfold Vec.pop
      rw [if_neg (by omega), show v.len - 1 = l.length from by omega, hma]
    have harith : (l ++ [a]).length + m = (l.length + m) + 1 := by
      simp
      omega
    rw [harith]
    simp only [Vec.popSeq, hstep]
    rw [ih { v with len := l.length } rfl (fun i hi => by
      have h := hm i (by simp; omega)
      rwa [List.getD_append l [a] default i hi] at h) m]
    simp [List.reverse_append]

/-- Claim C2: pop returns nothing exactly when the length is 0, each pop
decrements the length by one (sticking at 0 on an empty vector), and after
pushing the elements of `L` onto a fresh vector, `L.length + m` pops return
the pushed values in reverse order followed by `m` times nothing. -/
theorem pop_reverse_order (es : Nat) (L : List α) (hes : 1 ≤ es)
    (hN : L.length * es ≤ isizeMax / 2) :
    (∀ v : Vec α, v.pop.1 = none ↔ v.len = 0) ∧
    (∀ (v : Vec α) (j : Nat), (v.popSeq j).2.len = v.len - j) ∧
    ∀ m, ((Vec.new es : Except Panic (Vec α)).bind fun u => u.pushAll es L).map
        (fun w => (w.popSeq (L.length + m)).1)
      = .ok (L.reverse.map some ++ List.replicate m none) := by
  refine ⟨?_, fun v j => Vec.popSeq_len j v, ?_⟩
  · intro v
    unfold Vec.pop
    by_cases h : v.len = 0
    · simp [h]
    · simp [h]
  · intro m
    obtain ⟨w, hw, hlen, _, hmem⟩ := Vec.run_pushAll es hes L hN
    rw [hw]
    simp only [Except.map]
    rw [Vec.popSeq_spec L w hlen hmem m]

theorem pop_reverse_order_witness :
    1 ≤ 1 ∧ ([5, 6] : List Nat).length * 1 ≤ isizeMax / 2 ∧
    ((Vec.new 1 : Except Panic (Vec Nat)).bind fun u => u.pushAll 1 [5, 6]).map
        (fun w => (w.popSeq 3).1)
      = .ok [some 6, some 5, none] :=
  ⟨by decide, by decide, (pop_reverse_order 1 [5, 6] (by decide) (by decide)).2.2 1⟩

theorem Vec.grow_error_eq (es : Nat) (v : Vec α) (p : Panic) (h : v.grow es = .error p) :
    p = .capacityOverflow := by
  unfold Vec.grow at h
  by_cases hc0 : v.cap = 0
  · rw [if_pos hc0] at h
    cases h
  · rw [if_neg hc0] at h
    by_cases hch : (v.cap * es) % usizeSize ≤ isizeMax / 2
    · rw [if_pos hch] at h
      cases h
    · rw [if_neg hch] at h
      cases h
      rfl

/-- Claim C8: insert aborts with the out-of-bounds condition exactly when
the index exceeds the length and remove aborts exactly when the index is at
least the length; in both cases the error comes from the bounds check at
the top of the operation, before any state change.  When the index is in
bounds, remove always succeeds and insert can fail only through the grow
path, with the capacity-overflow condition. -/
theorem insert_remove_bounds (es : Nat) (v : Vec α) (i : Nat) (a : α) :
    (v.insert es i a = .error .indexOutOfBounds ↔ v.len < i) ∧
    (i ≤ v.len → (∃ w, v.insert es i a = .ok w) ∨ v.insert es i a = .error .capacityOverflow) ∧
    ((∃ p, v.remove i = .error p) ↔ v.len ≤ i) ∧
    (v.len ≤ i → v.remove i = .error .indexOutOfBounds) ∧
    (i < v.len → ∃ x w, v.remove i = .ok (x, w)) := by
  have hins : i ≤ v.len →
      (∃ w, v.insert es i a = .ok w) ∨ v.insert es i a = .error .capacityOverflow := by
    intro hi
    unfold Vec.insert
    rw [if_pos hi]
    by_cases hlc : v.len = v.cap
    · rw [if_pos hlc]
      cases hg : v.grow es with
      | error p =>
        right
        have hp := Vec.grow_error_eq es v p hg
        subst hp
        rfl
      | ok u =>
        left
        exact ⟨_, rfl⟩
    · rw [if_neg hlc]
      exact Or.inl ⟨_, rfl⟩
  refine ⟨?_, hins, ?_, ?_, ?_⟩
  · by_cases hi : i ≤ v.len
    · constructor
      · intro h
        rcases hins hi with ⟨w, hw⟩ | hcap
        · rw [hw] at h
          cases h
        · rw [hcap] at h
          simp at h
      · intro h
        exact absurd h (by omega)
    · unfold Vec.insert
      rw [if_neg hi]
      constructor
      · intro _
        omega
      · intro _
        rfl
  · constructor
    · rintro ⟨p, hp⟩
      by_contra h
      unfold Vec.remove at hp
      rw [if_pos (by omega)] at hp
      cases hp
    · intro h
      refine ⟨.indexOutOfBounds, ?_⟩
      unfold Vec.remove
      rw [if_neg (by omega)]
  · intro h
    unfold Vec.remove
    rw [if_neg (by omega)]
  · intro h
    refine ⟨v.mem i, { v with
        mem := fun j =>
          if i ≤ j ∧ j < i + (v.len - 1 - i) then v.mem (j + 1) else v.mem j,
        len := v.len - 1 }, ?_⟩
    unfold Vec.remove
    rw [if_pos h]

theorem insert_remove_bounds_witness :
    sampleVec.len ≤ 5 ∧ sampleVec.remove 5 = .error .indexOutOfBounds :=
  ⟨by decide, (insert_remove_bounds 1 sampleVec 5 0).2.2.2.1 (by decide)⟩

/-- Claim C5 (amended): on a non-empty buffer with a nonzero element size
(and no usize wraparound in the byte-size computation), grow aborts with
the capacity-overflow condition exactly when the CURRENT byte size
`cap * elem_size` exceeds half of the maximum representable byte offset —
equivalently, exactly when the NEW byte size `2 * (cap * elem_size)` would
exceed the maximum representable byte offset itself — and otherwise it
doubles the capacity.  This holds for `RawVec::grow` and `Vec::grow`
alike. -/
theorem grow_abort_iff (es cap : Nat) (hcap : 1 ≤ cap) (hes : 1 ≤ es)
    (hnw : cap * es < usizeSize) :
    (RawVec.grow es ⟨cap⟩ = .error .capacityOverflow ↔ isizeMax / 2 < cap * es) ∧
    (isizeMax / 2 < cap * es ↔ isizeMax < 2 * (cap * es)) ∧
    (cap * es ≤ isizeMax / 2 → RawVec.grow es ⟨cap⟩ = .ok (⟨cap * 2⟩, true)) ∧
    ∀ v : Vec α, v.cap = cap →
      ((v.grow es = .error .capacityOverflow ↔ isizeMax / 2 < cap * es) ∧
       (cap * es ≤ isizeMax / 2 → v.grow es = .ok { v with cap := cap * 2 })) := by
  have hmod : (cap * es) % usizeSize = cap * es := Nat.mod_eq_of_lt hnw
  have h2 : isizeMax / 2 = 4611686018427387903 := by decide
  have h3 : isizeMax = 9223372036854775807 := by decide
  have h4 : usizeSize = 18446744073709551616 := by decide
  have hcm : cap ≤ cap * es := Nat.le_mul_of_pos_right _ (by omega)
  have hes0 : ¬ es = 0 := by omega
  have hc0 : ¬ cap = 0 := by omega
  by_cases hle : cap * es ≤ isizeMax / 2
  · have hc2 : (cap * 2) % usizeSize = cap * 2 := Nat.mod_eq_of_lt (by omega)
    have hr : RawVec.grow es ⟨cap⟩ = .ok (⟨cap * 2⟩, true) := by
      simp [RawVec.grow, hes0, hc0, hmod, hle, hc2]
    have hv : ∀ v : Vec α, v.cap = cap → v.grow es = .ok { v with cap := cap * 2 } := by
      intro v hvc
      simp [Vec.grow, hvc, hc0, hmod, hle, hc2]
    refine ⟨?_, by omega, fun _ => hr, fun v hvc => ⟨?_, fun _ => hv v hvc⟩⟩
    · rw [hr]
      simp
      omega
    · rw [hv v hvc]
      simp
      omega
  · have hr : RawVec.grow es ⟨cap⟩ = .error .capacityOverflow := by
      simp [RawVec.grow, hes0, hc0, hmod, hle]
    have hv : ∀ v : Vec α, v.cap = cap → v.grow es = .error .capacityOverflow := by
      intro v hvc
      simp [Vec.grow, hvc, hc0, hmod, hle]
    refine ⟨?_, by omega, fun h => absurd h hle, fun v hvc => ⟨?_, fun h => absurd h hle⟩⟩
    · rw [hr]
      simp
      omega
    · rw [hv v hvc]
      simp
      omega

theorem grow_abort_iff_witness :
    1 ≤ 3 ∧ 1 ≤ 1 ∧ 3 * 1 < usizeSize ∧ RawVec.grow 1 ⟨3⟩ = .ok (⟨6⟩, true) :=
  ⟨by decide, by decide, by decide,
   (grow_abort_iff (α := Nat) 1 3 (by decide) (by decide) (by decide)).2.2.1 (by decide)⟩

/-- Claim C4 (the construction itself is modelled from the spec, since
`Vec::drain` is not under src/): constructing the drain iterator
synchronously sets the length of the array to `start` as part of construction,
independent of whether the returned cursor is ever advanced; in particular
`drain(0)` on the two-element vector `[0, 1]` leaves `len() == 0`
immediately after the call. -/
theorem drain_sets_length_eagerly (es base : Nat) (v : Vec α) (start : Nat)
    (h : start < v.len) :
    (Vec.drain es base v start).map (fun p => p.2.len) = .ok start := by
  unfold Vec.drain
  rw [if_pos h]
  rfl

theorem drain_sets_length_eagerly_witness :
    0 < sampleVec.len ∧ (Vec.drain 1 0 sampleVec 0).map (fun p => p.2.len) = .ok 0 :=
  ⟨by decide, drain_sets_length_eagerly 1 0 sampleVec 0 (by decide)⟩

theorem stride_pos (es : Nat) : 0 < stride es := by
  unfold stride
  split <;> omega

theorem rv_new_inv (es base : Nat) (elems : List α) :
    RVInv es base elems 0 elems.length (RawValIter.new es base elems) := by
  refine ⟨rfl, rfl, rfl, Nat.zero_le _, le_rfl, by simp [RawValIter.new], ?_⟩
  unfold RawValIter.new stride
  by_cases h0 : es = 0
  · simp [h0]
  · by_cases hn : elems.length = 0
    · simp [h0, hn]
    · simp [h0, hn]

theorem rv_start_ne {es base : Nat} {elems : List α} {s e : Nat} {it : RawValIter α}
    (h : RVInv es base elems s e it) (hse : s < e) : ¬ it.start = it.endp := by
  obtain ⟨_, _, _, _, _, hs, he⟩ := h
  rw [hs, he]
  intro hh
  have h1 : s * stride es = e * stride es := by omega
  have h2 := Nat.eq_of_mul_eq_mul_right (stride_pos es) h1
  omega

theorem memRead_at {es base : Nat} {elems : List α} (i : Nat) :
    memRead elems base es (base + i * stride es) = elems.getD i default := by
  unfold memRead
  rw [Nat.add_sub_cancel_left, Nat.mul_div_cancel i (stride_pos es)]

theorem rv_next_step {es base : Nat} {elems : List α} {s e : Nat} {it : RawValIter α}
    (h : RVInv es base elems s e it) (hse : s < e) :
    it.next = (some (elems.getD s default), { it with start := base + (s + 1) * stride es }) ∧
      RVInv es base elems (s + 1) e { it with start := base + (s + 1) * stride es } := by
  obtain ⟨hes, hb, hel, hle, hE, hs, he⟩ := h
  have hne := rv_start_ne ⟨hes, hb, hel, hle, hE, hs, he⟩ hse
  have hread : memRead it.elems it.base it.es it.start = elems.getD s default := by
    rw [hel, hb, hes, hs, memRead_at s]
  have hstep : (if it.es = 0 then it.start + 1 else it.start + it.es)
      = base + (s + 1) * stride es := by
    rw [hes, hs]
    by_cases h0 : es = 0
    · have hstrid : stride es = 1 := by
        unfold stride
        rw [if_pos h0]
      rw [if_pos h0, hstrid]
      omega
    · have hstrid : stride es = es := by
        unfold stride
        rw [if_neg h0]
      rw [if_neg h0, hstrid]
      ring
  constructor
  · unfold RawValIter.next
    rw [if_neg hne, hread, hstep]
  · exact ⟨hes, hb, hel, by omega, hE, rfl, he⟩

theorem rv_nextBack_step {es base : Nat} {elems : List α} {s e : Nat} {it : RawValIter α}
    (h : RVInv es base elems s e it) (hse : s < e) :
    it.nextBack = (some (elems.getD (e - 1) default),
        { it with endp := base + (e - 1) * stride es }) ∧
      RVInv es base elems s (e - 1) { it with endp := base + (e - 1) * stride es } := by
  obtain ⟨hes, hb, hel, hle, hE, hs, he⟩ := h
  have hne := rv_start_ne ⟨hes, hb, hel, hle, hE, hs, he⟩ hse
  have hstep : (if it.es = 0 then it.endp - 1 else it.endp - it.es)
      = base + (e - 1) * stride es := by
    rw [hes, he]
    by_cases h0 : es = 0
    · have hstrid : stride es = 1 := by
        unfold stride
        rw [if_pos h0]
      rw [if_pos h0, hstrid]
      omega
    · have hstrid : stride es = es := by
        unfold stride
        rw [if_neg h0]
      rw [if_neg h0, hstrid, Nat.sub_mul, one_mul]
      have h1 : 1 * es ≤ e * es := Nat.mul_le_mul_right es (by omega)
      rw [one_mul] at h1
      omega
  have hread : memRead it.elems it.base it.es (base + (e - 1) * stride es)
      = elems.getD (e - 1) default := by
    rw [hel, hb, hes, memRead_at (e - 1)]
  constructor
  · unfold RawValIter.nextBack
    rw [if_neg hne]
    simp only [hstep, hread]
  · exact ⟨hes, hb, hel, by omega, by omega, hs, rfl⟩

theorem seg_front (elems : List α) (s e : Nat) (hse : s < e) (he : e ≤ elems.length) :
    (elems.drop s).take (e - s)
      = elems.getD s default :: (elems.drop (s + 1)).take (e - (s + 1)) := by
  have hs : s < elems.length := lt_of_lt_of_le hse he
  rw [List.drop_eq_getElem_cons hs, show e - s = (e - (s + 1)) + 1 from by omega,
    List.take_succ_cons, List.getD_eq_getElem elems default hs]

theorem seg_back (elems : List α) (s e : Nat) (hse : s < e) (he : e ≤ elems.length) :
    (elems.drop s).take (e - s)
      = (elems.drop s).take (e - 1 - s) ++ [elems.getD (e - 1) default] := by
  have h1 : e - s = (e - 1 - s) + 1 := by omega
  rw [h1, List.take_succ]
  congr 1
  rw [List.getElem?_drop, show s + (e - 1 - s) = e - 1 from by omega]
  have h3 : e - 1 < elems.length := by omega
  rw [List.getElem?_eq_getElem h3, List.getD_eq_getElem elems default h3]
  rfl

theorem specDequeRun_counts : ∀ (ds : List Bool) (xs : List α),
    ((specDequeRun xs ds).1.reduceOption).length = min ds.length xs.length ∧
    ((specDequeRun xs ds).2).length = xs.length - ds.length
  | [], xs => ⟨by simp [specDequeRun], by simp [specDequeRun]⟩
  | d :: ds, xs => by
    cases d with
    | true =>
      cases xs with
      | nil =>
        obtain ⟨ih1, ih2⟩ := specDequeRun_counts ds ([] : List α)
        have h0 : specDequeStep ([] : List α) true = (none, []) := by
          simp [specDequeStep]
        constructor
        · simp only [specDequeRun, h0]
          simp [ih1]
        · simp only [specDequeRun, h0]
          simpa using ih2
      | cons x xs' =>
        obtain ⟨ih1, ih2⟩ := specDequeRun_counts ds xs'
        have h0 : specDequeStep (x :: xs') true = (some x, xs') := by
          simp [specDequeStep]
        constructor
        · simp only [specDequeRun, h0, List.reduceOption_cons_of_some, List.length_cons]
          rw [ih1]
          omega
        · simp only [specDequeRun, h0, List.length_cons]
          rw [ih2]
          omega
    | false =>
      rcases List.eq_nil_or_concat xs with rfl | ⟨l', y, rfl⟩
      · obtain ⟨ih1, ih2⟩ := specDequeRun_counts ds ([] : List α)
        have h0 : specDequeStep ([] : List α) false = (none, []) := by
          simp [specDequeStep]
        constructor
        · simp only [specDequeRun, h0]
          simp [ih1]
        · simp only [specDequeRun, h0]
          simpa using ih2
      · obtain ⟨ih1, ih2⟩ := specDequeRun_counts ds l'
        have h0 : specDequeStep (l'.concat y) false = (some y, l') := by
          simp [specDequeStep, List.concat_eq_append, List.getLast?_concat,
            List.dropLast_concat]
        constructor
        · simp only [specDequeRun, h0, List.reduceOption_cons_of_some, List.length_cons]
          rw [ih1]
          simp only [List.concat_eq_append, List.length_append, List.length_cons,
            List.length_nil]
          omega
        · simp only [specDequeRun, h0, List.length_cons]
          rw [ih2]
          simp only [List.concat_eq_append, List.length_append, List.length_cons,
            List.length_nil]
          omega

theorem rv_run_spec (es base : Nat) (elems : List α) :
    ∀ (ds : List Bool) (s e : Nat) (it : RawValIter α), RVInv es base elems s e it →
      ∃ s' e', s ≤ s' ∧ s' ≤ e' ∧ e' ≤ e ∧ RVInv es base elems s' e' (it.run ds).2 ∧
        (it.run ds).1 = (specDequeRun ((elems.drop s).take (e - s)) ds).1 ∧
        (specDequeRun ((elems.drop s).take (e - s)) ds).2 = (elems.drop s').take (e' - s')
  | [], s, e, _, h => ⟨s, e, le_rfl, h.2.2.2.1, le_rfl, h, rfl, rfl⟩
  | d :: ds, s, e, it, h => by
    have hE : e ≤ elems.length := h.2.2.2.2.1
    rcases Nat.lt_or_ge s e with hse | hge
    · cases d with
      | true =>
        obtain ⟨hstep, hinv₁⟩ := rv_next_step h hse
        obtain ⟨s', e', hs', hse', he', hinv', houts, hseg⟩ :=
          rv_run_spec es base elems ds (s + 1) e _ hinv₁
        have hstepF : specDequeStep
              (elems.getD s default :: (elems.drop (s + 1)).take (e - (s + 1))) true
            = (some (elems.getD s default), (elems.drop (s + 1)).take (e - (s + 1))) := by
          simp [specDequeStep]
        refine ⟨s', e', by omega, hse', he', ?_, ?_, ?_⟩
        · simp only [RawValIter.run, Bool.cond_true, hstep]
          exact hinv'
        · simp only [RawValIter.run, Bool.cond_true, hstep]
          rw [seg_front elems s e hse hE]
          simp only [specDequeRun, hstepF]
          rw [houts]
        · rw [seg_front elems s e hse hE]
          simp only [specDequeRun, hstepF]
          exact hseg
      | false =>
        obtain ⟨hstep, hinv₁⟩ := rv_nextBack_step h hse
        obtain ⟨s', e', hs', hse', he', hinv', houts, hseg⟩ :=
          rv_run_spec es base elems ds s (e - 1) _ hinv₁
        have hstepB : specDequeStep
              ((elems.drop s).take (e - 1 - s) ++ [elems.getD (e - 1) default]) false
            = (some (elems.getD (e - 1) default), (elems.drop s).take (e - 1 - s)) := by
          simp [specDequeStep, List.getLast?_concat, List.dropLast_concat]
        refine ⟨s', e', hs', hse', by omega, ?_, ?_, ?_⟩
        · simp only [RawValIter.run, Bool.cond_false, hstep]
          exact hinv'
        · simp only [RawValIter.run, Bool.cond_false, hstep]
          rw [seg_back elems s e hse hE]
          simp only [specDequeRun, hstepB]
          rw [houts]
        · rw [seg_back elems s e hse hE]
          simp only [specDequeRun, hstepB]
          exact hseg
    · have hseq : s = e := le_antisymm h.2.2.2.1 hge
      have hstartend : it.start = it.endp := by
        obtain ⟨_, _, _, _, _, hs, he⟩ := h
        rw [hs, he, hseq]
      have hnone : (cond d it.next it.nextBack) = (none, it) := by
        cases d with
        | true =>
          rw [Bool.cond_true]
          unfold RawValIter.next
          rw [if_pos hstartend]
        | false =>
          rw [Bool.cond_false]
          unfold RawValIter.nextBack
          rw [if_pos hstartend]
      obtain ⟨s', e', hs', hse', he', hinv', houts, hseg⟩ :=
        rv_run_spec es base elems ds s e it h
      have hseg0 : (elems.drop s).take (e - s) = [] := by
        rw [hseq]
        simp
      have hstep0 : specDequeStep ([] : List α) d = (none, []) := by
        cases d <;> simp [specDequeStep]
      refine ⟨s', e', hs', hse', he', ?_, ?_, ?_⟩
      · simp only [RawValIter.run, hnone]
        exact hinv'
      · rw [hseg0] at houts
        simp only [RawValIter.run, hnone, hseg0, specDequeRun, hstep0]
        rw [houts]
      · rw [hseg0] at hseg
        rw [hseg0]
        simp only [specDequeRun, hstep0]
        exact hseg

theorem rv_sizeHint_inv {es base : Nat} {elems : List α} {s e : Nat} {it : RawValIter α}
    (h : RVInv es base elems s e it) : it.sizeHint = (e - s, some (e - s)) := by
  obtain ⟨hes, _, _, _, _, hs, he⟩ := h
  unfold RawValIter.sizeHint
  rw [hes, hs, he]
  have hdiff : base + e * stride es - (base + s * stride es) = (e - s) * stride es := by
    rw [Nat.sub_mul]
    omega
  rw [hdiff, show (if es = 0 then 1 else es) = stride es from rfl,
    Nat.mul_div_cancel (e - s) (stride_pos es)]

theorem rv_drainAll_length {es base : Nat} {elems : List α} {s e : Nat} {it : RawValIter α}
    (h : RVInv es base elems s e it) : it.drainAll.length = e - s := by
  have hsz : it.sizeHint.1 = e - s := by
    rw [rv_sizeHint_inv h]
  obtain ⟨s', e', hs', hse', he', hinv', houts, hseg⟩ :=
    rv_run_spec es base elems (List.replicate it.sizeHint.1 true) s e it h
  unfold RawValIter.drainAll
  rw [houts]
  rw [(specDequeRun_counts (List.replicate it.sizeHint.1 true)
      ((elems.drop s).take (e - s))).1, List.length_replicate, hsz]
  have hE : e ≤ elems.length := h.2.2.2.2.1
  have hle : s ≤ e := h.2.2.2.1
  simp only [List.length_take, List.length_drop]
  omega

theorem rv_final_remaining (es base : Nat) (elems : List α) (ds : List Bool) :
    ∃ s' e', RVInv es base elems s' e' ((RawValIter.new es base elems).run ds).2 ∧
      e' - s' = elems.length - ds.length ∧
      ((RawValIter.new es base elems).run ds).1 = (specDequeRun elems ds).1 := by
  obtain ⟨s', e', hs', hse', he', hinv', houts, hseg⟩ :=
    rv_run_spec es base elems ds 0 elems.length (RawValIter.new es base elems)
      (rv_new_inv es base elems)
  have hseg0 : (elems.drop 0).take (elems.length - 0) = elems := by
    simp
  rw [hseg0] at houts hseg
  refine ⟨s', e', hinv', ?_, houts⟩
  have h1 := congrArg List.length hseg
  rw [(specDequeRun_counts ds elems).2] at h1
  simp only [List.length_take, List.length_drop] at h1
  omega

/-- Claim C6: any interleaving of next and next_back calls on a cursor built
over a range behaves exactly like the two-ended traversal of the element
list (front pops the head, back pops the last, nothing once empty), so each
element is yielded exactly once, the number of values yielded is exactly
the number of operations capped by the element count, exhaustion is
permanent, and on `[0, 1, 2]` the sequence next, next_back, next,
next_back, next yields 0, 2, 1, nothing, nothing. -/
theorem interleaved_traversal_exact (es base : Nat) (elems : List α) (ds : List Bool) :
    ((RawValIter.new es base elems).run ds).1 = (specDequeRun elems ds).1 ∧
    (((RawValIter.new es base elems).run ds).1.reduceOption).length
        = min ds.length elems.length ∧
    ((RawValIter.new 1 0 [0, 1, 2]).run [true, false, true, false, true]).1
      = [some 0, some 2, some 1, none, none] := by
  obtain ⟨s', e', _, _, houts⟩ := rv_final_remaining es base elems ds
  refine ⟨houts, ?_, by decide⟩
  rw [houts]
  exact (specDequeRun_counts ds elems).1

theorem ii_intoIter_inv (es base : Nat) (v : Vec α) (hlc : v.len ≤ v.cap) :
    IIInv es base ((List.range v.len).map v.mem) 0 v.len (Vec.intoIter es base v) := by
  refine ⟨rfl, rfl, rfl, Nat.zero_le _, by simp, by simp [Vec.intoIter], ?_⟩
  unfold Vec.intoIter
  by_cases hc : v.cap = 0
  · have h0 : v.len = 0 := by omega
    simp [hc, h0]
  · simp [hc]

theorem ii_start_ne {es base : Nat} {elems : List α} {s e : Nat} {it : IntoIter α}
    (hes : 1 ≤ es) (h : IIInv es base elems s e it) (hse : s < e) :
    ¬ it.start = it.endp := by
  obtain ⟨_, _, _, _, _, hs, he⟩ := h
  rw [hs, he]
  intro hh
  have h1 : s * es = e * es := by omega
  have h2 := Nat.eq_of_mul_eq_mul_right (show 0 < es by omega) h1
  omega

theorem memRead_at' {es base : Nat} {elems : List α} (hes : 1 ≤ es) (i : Nat) :
    memRead (α := α) elems base es (base + i * es) = elems.getD i default := by
  have hstrid : stride es = es := by
    unfold stride
    rw [if_neg (by omega)]
  rw [show base + i * es = base + i * stride es from by rw [hstrid], memRead_at i]

theorem ii_next_step {es base : Nat} {elems : List α} {s e : Nat} {it : IntoIter α}
    (hes : 1 ≤ es) (h : IIInv es base elems s e it) (hse : s < e) :
    it.next = (some (elems.getD s default), { it with start := base + (s + 1) * es }) ∧
      IIInv es base elems (s + 1) e { it with start := base + (s + 1) * es } := by
  obtain ⟨hees, hb, hel, hle, hEl, hs, he⟩ := h
  have hne := ii_start_ne hes ⟨hees, hb, hel, hle, hEl, hs, he⟩ hse
  have hread : memRead it.elems it.base it.es it.start = elems.getD s default := by
    rw [hel, hb, hees, hs, memRead_at' hes s]
  have hstep : it.start + it.es = base + (s + 1) * es := by
    rw [hees, hs]
    ring
  constructor
  · unfold IntoIter.next
    rw [if_neg hne, hread, hstep]
  · exact ⟨hees, hb, hel, by omega, hEl, rfl, he⟩

theorem ii_nextBack_step {es base : Nat} {elems : List α} {s e : Nat} {it : IntoIter α}
    (hes : 1 ≤ es) (h : IIInv es base elems s e it) (hse : s < e) :
    it.nextBack = (some (elems.getD (e - 1) default), { it with endp := base + (e - 1) * es }) ∧
      IIInv es base elems s (e - 1) { it with endp := base + (e - 1) * es } := by
  obtain ⟨hees, hb, hel, hle, hEl, hs, he⟩ := h
  have hne := ii_start_ne hes ⟨hees, hb, hel, hle, hEl, hs, he⟩ hse
  have hstep : it.endp - it.es = base + (e - 1) * es := by
    rw [hees, he, Nat.sub_mul, one_mul]
    have h1 : 1 * es ≤ e * es := Nat.mul_le_mul_right es (by omega)
    rw [one_mul] at h1
    omega
  have hread : memRead it.elems it.base it.es (base + (e - 1) * es)
      = elems.getD (e - 1) default := by
    rw [hel, hb, hees, memRead_at' hes (e - 1)]
  constructor
  · unfold IntoIter.nextBack
    rw [if_neg hne, hstep, hread]
  · exact ⟨hees, hb, hel, by omega, by omega, hs, rfl⟩

theorem ii_run_spec (es base : Nat) (hes : 1 ≤ es) (elems : List α) :
    ∀ (ds : List Bool) (s e : Nat) (it : IntoIter α), IIInv es base elems s e it →
      ∃ s' e', s ≤ s' ∧ s' ≤ e' ∧ e' ≤ e ∧ IIInv es base elems s' e' (it.run ds).2 ∧
        (it.run ds).1 = (specDequeRun ((elems.drop s).take (e - s)) ds).1 ∧
        (specDequeRun ((elems.drop s).take (e - s)) ds).2 = (elems.drop s').take (e' - s')
  | [], s, e, _, h => ⟨s, e, le_rfl, h.2.2.2.1, le_rfl, h, rfl, rfl⟩
  | d :: ds, s, e, it, h => by
    have hE : e ≤ elems.length := h.2.2.2.2.1
    rcases Nat.lt_or_ge s e with hse | hge
    · cases d with
      | true =>
        obtain ⟨hstep, hinv₁⟩ := ii_next_step hes h hse
        obtain ⟨s', e', hs', hse', he', hinv', houts, hseg⟩ :=
          ii_run_spec es base hes elems ds (s + 1) e _ hinv₁
        have hstepF : specDequeStep
              (elems.getD s default :: (elems.drop (s + 1)).take (e - (s + 1))) true
            = (some (elems.getD s default), (elems.drop (s + 1)).take (e - (s + 1))) := by
          simp [specDequeStep]
        refine ⟨s', e', by omega, hse', he', ?_, ?_, ?_⟩
        · simp only [IntoIter.run, Bool.cond_true, hstep]
          exact hinv'
        · simp only [IntoIter.run, Bool.cond_true, hstep]
          rw [seg_front elems s e hse hE]
          simp only [specDequeRun, hstepF]
          rw [houts]
        · rw [seg_front elems s e hse hE]
          simp only [specDequeRun, hstepF]
          exact hseg
      | false =>
        obtain ⟨hstep, hinv₁⟩ := ii_nextBack_step hes h hse
        obtain ⟨s', e', hs', hse', he', hinv', houts, hseg⟩ :=
          ii_run_spec es base hes elems ds s (e - 1) _ hinv₁
        have hstepB : specDequeStep
              ((elems.drop s).take (e - 1 - s) ++ [elems.getD (e - 1) default]) false
            = (some (elems.getD (e - 1) default), (elems.drop s).take (e - 1 - s)) := by
          simp [specDequeStep, List.getLast?_concat, List.dropLast_concat]
        refine ⟨s', e', hs', hse', by omega, ?_, ?_, ?_⟩
        · simp only [IntoIter.run, Bool.cond_false, hstep]
          exact hinv'
        · simp only [IntoIter.run, Bool.cond_false, hstep]
          rw [seg_back elems s e hse hE]
          simp only [specDequeRun, hstepB]
          rw [houts]
        · rw [seg_back elems s e hse hE]
          simp only [specDequeRun, hstepB]
          exact hseg
    · have hseq : s = e := le_antisymm h.2.2.2.1 hge
      have hstartend : it.start = it.endp := by
        obtain ⟨_, _, _, _, _, hs, he⟩ := h
        rw [hs, he, hseq]
      have hnone : (cond d it.next it.nextBack) = (none, it) := by
        cases d with
        | true =>
          rw [Bool.cond_true]
          unfold IntoIter.next
          rw [if_pos hstartend]
        | false =>
          rw [Bool.cond_false]
          unfold IntoIter.nextBack
          rw [if_pos hstartend]
      obtain ⟨s', e', hs', hse', he', hinv', houts, hseg⟩ :=
        ii_run_spec es base hes elems ds s e it h
      have hseg0 : (elems.drop s).take (e - s) = [] := by
        rw [hseq]
        simp
      have hstep0 : specDequeStep ([] : List α) d = (none, []) := by
        cases d <;> simp [specDequeStep]
      refine ⟨s', e', hs', hse', he', ?_, ?_, ?_⟩
      · simp only [IntoIter.run, hnone]
        exact hinv'
      · rw [hseg0] at houts
        simp only [IntoIter.run, hnone, hseg0, specDequeRun, hstep0]
        rw [houts]
      · rw [hseg0] at hseg
        rw [hseg0]
        simp only [specDequeRun, hstep0]
        exact hseg

theorem ii_sizeHint_inv {es base : Nat} {elems : List α} {s e : Nat} {it : IntoIter α}
    (hes : 1 ≤ es) (h : IIInv es base elems s e it) :
    it.sizeHint = .ok (e - s, some (e - s)) := by
  obtain ⟨hees, _, _, _, _, hs, he⟩ := h
  unfold IntoIter.sizeHint
  rw [hees, hs, he, if_neg (by omega : ¬ es = 0)]
  have hdiff : base + e * es - (base + s * es) = (e - s) * es := by
    rw [Nat.sub_mul]
    omega
  rw [hdiff, Nat.mul_div_cancel (e - s) (by omega : 0 < es)]

theorem ii_remaining_count {es base : Nat} {elems : List α} {s e : Nat} {it : IntoIter α}
    (hes : 1 ≤ es) (h : IIInv es base elems s e it) :
    (it.endp - it.start) / stride it.es = e - s := by
  obtain ⟨hees, _, _, _, _, hs, he⟩ := h
  have hstrid : stride es = es := by
    unfold stride
    rw [if_neg (by omega)]
  rw [hees, hs, he, hstrid]
  have hdiff : base + e * es - (base + s * es) = (e - s) * es := by
    rw [Nat.sub_mul]
    omega
  rw [hdiff, Nat.mul_div_cancel (e - s) (by omega : 0 < es)]

theorem ii_drainAll_length {es base : Nat} {elems : List α} {s e : Nat} {it : IntoIter α}
    (hes : 1 ≤ es) (h : IIInv es base elems s e it) : it.drainAll.length = e - s := by
  have hsz := ii_remaining_count hes h
  obtain ⟨s', e', hs', hse', he', hinv', houts, hseg⟩ :=
    ii_run_spec es base hes elems (List.replicate ((it.endp - it.start) / stride it.es) true)
      s e it h
  unfold IntoIter.drainAll
  rw [houts]
  rw [(specDequeRun_counts (List.replicate ((it.endp - it.start) / stride it.es) true)
      ((elems.drop s).take (e - s))).1, List.length_replicate, hsz]
  have hE : e ≤ elems.length := h.2.2.2.2.1
  have hle : s ≤ e := h.2.2.2.1
  simp only [List.length_take, List.length_drop]
  omega

theorem ii_final_remaining (es base : Nat) (hes : 1 ≤ es) (v : Vec α) (hlc : v.len ≤ v.cap)
    (ds : List Bool) :
    ∃ s' e', IIInv es base ((List.range v.len).map v.mem) s' e'
        ((Vec.intoIter es base v).run ds).2 ∧
      e' - s' = v.len - ds.length ∧
      ((Vec.intoIter es base v).run ds).1
        = (specDequeRun ((List.range v.len).map v.mem) ds).1 := by
  obtain ⟨s', e', hs', hse', he', hinv', houts, hseg⟩ :=
    ii_run_spec es base hes ((List.range v.len).map v.mem) ds 0 v.len (Vec.intoIter es base v)
      (ii_intoIter_inv es base v hlc)
  have hlen : ((List.range v.len).map v.mem).length = v.len := by
    simp
  have hseg0 : (((List.range v.len).map v.mem).drop 0).take (v.len - 0)
      = (List.range v.len).map v.mem := by
    rw [List.drop_zero, Nat.sub_zero]
    exact List.take_of_length_le (by rw [hlen])
  rw [hseg0] at houts hseg
  refine ⟨s', e', hinv', ?_, houts⟩
  have h1 := congrArg List.length hseg
  rw [(specDequeRun_counts ds ((List.range v.len).map v.mem)).2] at h1
  simp only [List.length_take, List.length_drop, hlen] at h1
  omega

theorem ii_run_exhausted (it : IntoIter α) (h : it.start = it.endp) :
    ∀ ds, (it.run ds).1 = List.replicate ds.length none ∧ (it.run ds).2 = it
  | [] => ⟨rfl, rfl⟩
  | d :: ds => by
    have hstep : (cond d it.next it.nextBack) = (none, it) := by
      cases d with
      | true =>
        rw [Bool.cond_true]
        unfold IntoIter.next
        rw [if_pos h]
      | false =>
        rw [Bool.cond_false]
        unfold IntoIter.nextBack
        rw [if_pos h]
    obtain ⟨ih1, ih2⟩ := ii_run_exhausted it h ds
    constructor
    · simp only [IntoIter.run, hstep]
      rw [ih1]
      rfl
    · simp only [IntoIter.run, hstep]
      exact ih2

/-- Claim C10: converting a capacity-0 vector (in particular a freshly
created one, whose capacity is 0) into the consuming iterator sets the end
address equal to the start address — the cap == 0 branch of
`Vec::into_iter` returns the buffer address itself instead of offsetting
the unallocated placeholder — and every next/next_back call on the
resulting iterator returns nothing. -/
theorem empty_into_iter_safe (es base : Nat) (v : Vec α) (hcap : v.cap = 0) :
    (Vec.intoIter es base v).endp = (Vec.intoIter es base v).start ∧
    (∀ ds, ((Vec.intoIter es base v).run ds).1 = List.replicate ds.length none) ∧
    (∀ u : Vec α, (Vec.new es : Except Panic (Vec α)) = .ok u → u.cap = 0) := by
  have hse : (Vec.intoIter es base v).start = (Vec.intoIter es base v).endp := by
    unfold Vec.intoIter
    simp [hcap]
  refine ⟨hse.symm, fun ds => (ii_run_exhausted _ hse ds).1, ?_⟩
  intro u hu
  unfold Vec.new at hu
  by_cases h0 : es ≠ 0
  · rw [if_pos h0] at hu
    cases hu
    rfl
  · rw [if_neg h0] at hu
    cases hu

theorem empty_into_iter_safe_witness :
    ({ mem := fun _ => 0, cap := 0, len := 0 } : Vec Nat).cap = 0 ∧
    ((Vec.intoIter 8 0 ({ mem := fun _ => 0, cap := 0, len := 0 } : Vec Nat)).run
        [true, false, true]).1 = List.replicate 3 none :=
  ⟨rfl, (empty_into_iter_safe 8 0 _ rfl).2.1 [true, false, true]⟩

/-- Claim C9 (amended): on every reachable state of the double-ended raw
cursor the remaining count is computed as `(end - start) / element_size`
with the element size treated as 1 when it is zero, and equals exactly the
number of elements still to be yielded; the size_hint of the consuming
iterator, for the nonzero element sizes that `Vec` can produce, is
likewise exact — but it divides by the element size directly, so on a
zero-sized type it divides by zero (a panic) instead of treating the size
as 1. -/
theorem size_hint_exact (es base : Nat) (elems : List α) (ds : List Bool)
    (esI baseI : Nat) (hes : 1 ≤ esI) (v : Vec α) (hlc : v.len ≤ v.cap) (dsI : List Bool) :
    (((RawValIter.new es base elems).run ds).2).sizeHint
        = (elems.length - (((RawValIter.new es base elems).run ds).1.reduceOption).length,
           some (elems.length
             - (((RawValIter.new es base elems).run ds).1.reduceOption).length)) ∧
    (((Vec.intoIter esI baseI v).run dsI).2).sizeHint
        = .ok (v.len - ((((Vec.intoIter esI baseI v).run dsI).1).reduceOption).length,
               some (v.len - ((((Vec.intoIter esI baseI v).run dsI).1).reduceOption).length)) ∧
    (IntoIter.new 0 0 ([(), (), ()] : List Unit) 0 3).sizeHint = .error .divisionByZero := by
  refine ⟨?_, ?_, rfl⟩
  · obtain ⟨s', e', hinv', hrem, houts⟩ := rv_final_remaining es base elems ds
    rw [rv_sizeHint_inv hinv', houts, (specDequeRun_counts ds elems).1]
    have h1 : e' - s' = elems.length - min ds.length elems.length := by omega
    rw [h1]
  · obtain ⟨s', e', hinv', hrem, houts⟩ := ii_final_remaining esI baseI hes v hlc dsI
    rw [ii_sizeHint_inv hes hinv', houts,
      (specDequeRun_counts dsI ((List.range v.len).map v.mem)).1]
    have hlen : ((List.range v.len).map v.mem).length = v.len := by simp
    rw [hlen]
    have h1 : e' - s' = v.len - min dsI.length v.len := by omega
    rw [h1]

theorem size_hint_exact_witness :
    1 ≤ 1 ∧ sampleVec.len ≤ sampleVec.cap ∧
    (((Vec.intoIter 1 0 sampleVec).run [true]).2).sizeHint = .ok (1, some 1) := by
  refine ⟨le_rfl, by decide, ?_⟩
  exact (size_hint_exact 1 0 ([] : List Nat) [] 1 0 le_rfl sampleVec (by decide) [true]).2.1

/-- Claim C7: destroying a partially consumed drain iterator or consuming
iterator visits and cleans up every remaining element (unconditionally for
Drain, under needs_drop for IntoIter): after any sequence of next and
next_back calls, the number of elements visited by the exhausting loop of
the destructor plus the number already yielded equals the original element
count, so nothing is leaked. -/
theorem drop_cleans_remainder (es base : Nat) (elems : List α) (ds : List Bool)
    (esI baseI : Nat) (hes : 1 ≤ esI) (v : Vec α) (hlc : v.len ≤ v.cap) (dsI : List Bool) :
    (((Drain.new (RawValIter.new es base elems)).run ds).2.dropRun).length
        + ((((Drain.new (RawValIter.new es base elems)).run ds).1).reduceOption).length
      = elems.length ∧
    ((((Vec.intoIter esI baseI v).run dsI).2).dropRun true).length
        + ((((Vec.intoIter esI baseI v).run dsI).1).reduceOption).length
      = v.len := by
  constructor
  · have hdr : ((Drain.new (RawValIter.new es base elems)).run ds).2.dropRun
        = (((RawValIter.new es base elems).run ds).2).drainAll := rfl
    have hdo : ((Drain.new (RawValIter.new es base elems)).run ds).1
        = ((RawValIter.new es base elems).run ds).1 := rfl
    rw [hdr, hdo]
    obtain ⟨s', e', hinv', hrem, houts⟩ := rv_final_remaining es base elems ds
    rw [rv_drainAll_length hinv', houts, (specDequeRun_counts ds elems).1]
    omega
  · have hdo : (((Vec.intoIter esI baseI v).run dsI).2).dropRun true
        = (((Vec.intoIter esI baseI v).run dsI).2).drainAll := rfl
    rw [hdo]
    obtain ⟨s', e', hinv', hrem, houts⟩ := ii_final_remaining esI baseI hes v hlc dsI
    rw [ii_drainAll_length hes hinv', houts,
      (specDequeRun_counts dsI ((List.range v.len).map v.mem)).1]
    have hlen : ((List.range v.len).map v.mem).length = v.len := by simp
    rw [hlen]
    omega

/-- Claim C9 counterexample: a consuming-iterator state with element size 0
(three zero-sized elements remaining, start 0, end 3).  Its size_hint does
not treat the element size as 1: it divides by zero and panics, although
the claimed computation `(end - start) / 1` would give the exact remaining
count 3. -/
theorem size_hint_div_zero_cex :
    (IntoIter.new 0 0 ([(), (), ()] : List Unit) 0 3).sizeHint = .error .divisionByZero ∧
    ((IntoIter.new 0 0 ([(), (), ()] : List Unit) 0 3).endp
        - (IntoIter.new 0 0 ([(), (), ()] : List Unit) 0 3).start) / stride 0 = 3 :=
  ⟨rfl, rfl⟩

theorem drop_cleans_remainder_witness :
    1 ≤ 1 ∧ sampleVec.len ≤ sampleVec.cap ∧
    (((Drain.new (RawValIter.new 1 0 [7, 8])).run [true]).2.dropRun).length
        + ((((Drain.new (RawValIter.new 1 0 [7, 8])).run [true]).1).reduceOption).length
      = 2 := by
  refine ⟨le_rfl, by decide, ?_⟩
  exact (drop_cleans_remainder 1 0 [7, 8] [true] 1 0 le_rfl sampleVec (by decide) []).1

end NomiconVec
